import Mathlib

/-!
Verification of the core branch-workflow engine of `gitflow`
(`gitflow/branches.py`, `gitflow/core.py`) against its specification.

The repository state manipulated by the program is embedded shallowly:
branch names are lists of characters, commits are natural-number ids with
an explicit parent map (the commit DAG), and every operation of the source
becomes a Lean function on a `Repo` record.  Operations that raise a
Python exception are embedded in `Except`: an exception raised before any
mutating backend call yields `.error e` with the starting state untouched,
which is exactly how the verified claims use them.
-/

namespace GitflowModel

/-- Branch, tag and remote-ref names, as the character strings Python uses. -/
abbrev Name := List Char

/-- Errors of the program: the exception taxonomy of `gitflow/exceptions.py`
plus the raw Python/GitPython failures the source can produce
(`IndexError` from `repo.branches[x]`, `NameError` from an unbound
variable, `SystemExit` from `die`). -/
inductive GFError where
  | branchExists (n : Name)
  | branchTypeExists (ident : Name)
  | tagExists (n : Name)
  | noSuchBranch (n : Name)
  | prefixNotUnique (ident : Name)
  | baseNotOnBranch (base target : Name)
  | workdirIsDirty
  | mergeConflict
  | notImplementedError
  | badObject (n : Name)
  | indexError (n : Name)
  | pythonNameError
  | systemExit
  | branchNotMerged (n : Name)
  | cannotDeleteCurrent (n : Name)
  deriving Repr, DecidableEq

/-- The repository state: the commit DAG (`parents` maps a commit id to the
ids of its parents, in order), the local branch refs, the tag refs, the
locally known remote refs (`origin/x`), the tracking configuration, the
working-tree status bits the source queries, and the checked-out branch. -/
structure Repo where
  nextId : Nat
  parents : List (Nat × List Nat)
  branches : List (Name × Nat)
  tags : List (Name × Nat)
  remoteRefs : List (Name × Nat)
  tracking : List (Name × Name)
  mergeConflictPending : Bool
  staged : Bool
  active : Name
  deriving Repr, DecidableEq

/-- Association-list lookup for name-keyed ref maps. -/
def lookupA (l : List (Name × Nat)) (n : Name) : Option Nat :=
  (l.find? (fun p => p.1 = n)).map (fun p => p.2)

/-- Parents of a commit in the DAG (a commit absent from the map has none). -/
def parentsOf (ps : List (Nat × List Nat)) (c : Nat) : List Nat :=
  ((ps.find? (fun p => p.1 = c)).map (fun p => p.2)).getD []

/-- Fuel-bounded reachability in the commit DAG: `reachAux ps a f c` holds
when `a` is reachable from `c` through at most `f` parent steps. -/
def reachAux (ps : List (Nat × List Nat)) (a : Nat) : Nat → Nat → Bool
  | 0, c => a == c
  | f + 1, c => a == c || (parentsOf ps c).any (fun p => reachAux ps a f p)

/-- `a` is an ancestor of (or equal to) `c`.  Commits the program creates
have parents with strictly smaller ids, so fuel `c` bounds every ancestor
chain from `c`.  This is the model of git's ancestry query, which the
source reaches through `GitFlow.is_merged_into` and `git rev-list`. -/
def isAncestorC (ps : List (Nat × List Nat)) (a c : Nat) : Bool :=
  reachAux ps a c c

/-- All commit ids bound in the DAG. -/
def commitIds (ps : List (Nat × List Nat)) : List Nat := ps.map (fun p => p.1)

/-- Well-formedness the program maintains: parents have strictly smaller
ids than their children, every bound id is below `nextId` (so `nextId` is
fresh), and every branch tip is a bound commit. -/
def wfRepo (r : Repo) : Bool :=
  r.parents.all (fun p => p.2.all (fun q => q < p.1)) &&
  r.parents.all (fun p => p.1 < r.nextId) &&
  r.branches.all (fun b => decide (b.2 ∈ commitIds r.parents) && b.2 < r.nextId)

/-- `BranchManager.full_name` (branches.py:63): prefix plus short name. -/
def full_nameOf (pfx n : Name) : Name := pfx ++ n

/-- `BranchManager.shorten` (branches.py:66): strip the manager's type
prefix when present, return the name unchanged otherwise. -/
def shorten (pfx fn : Name) : Name :=
  if pfx.isPrefixOf fn then fn.drop pfx.length else fn

/-- `BranchManager.iter` (branches.py:113): all local branches whose name
starts with the manager's type prefix. -/
def iterBranches (r : Repo) (pfx : Name) : List (Name × Nat) :=
  r.branches.filter (fun b => pfx.isPrefixOf b.1)

/-- `BranchManager.by_name_prefix` (branches.py:83): prepend the type's
prefix to the given name prefix, collect the branches of the type whose
full name starts with it, and demand exactly one match. -/
def by_name_pfx (r : Repo) (pfx ident namepfx : Name) :
    Except GFError (Name × Nat) :=
  match (iterBranches r pfx).filter
      (fun b => (pfx ++ namepfx).isPrefixOf b.1) with
  | [b] => .ok b
  | [] => .error (.noSuchBranch (pfx ++ namepfx))
  | _ => .error (.prefixNotUnique ident)

/-- `origin_name` (core.py:205): `origin + '/' + name`. -/
def originNameOf (origin n : Name) : Name := origin ++ [Char.ofNat 47] ++ n

/-- Resolve a ref name to a commit the way `git rev-parse` does for the
refs this model tracks: local branches first, then known remote refs. -/
def resolveCommit (r : Repo) (n : Name) : Option Nat :=
  (lookupA r.branches n).orElse (fun _ => lookupA r.remoteRefs n)

/-- Modelled from the spec: `GitFlow.is_merged_into` is called from
`branches.py` but absent from `src/gitflow/core.py`.  Per the spec's
backend contract (ancestry queries) and the tests pinning it down, it
holds iff the first ref's commit is an ancestor of the second ref's. -/
def isMergedIntoN (r : Repo) (a b : Name) : Option Bool :=
  match resolveCommit r a, resolveCommit r b with
  | some x, some y => some (isAncestorC r.parents x y)
  | _, _ => none

/-- Update the tip of an existing branch ref. -/
def setBranchTip (bs : List (Name × Nat)) (n : Name) (t : Nat) :
    List (Name × Nat) :=
  bs.map (fun b => if b.1 = n then (n, t) else b)

/-- `BranchManager._is_single_commit_branch` (branches.py:210): the
symmetric difference `git rev-list from...to` contains exactly one
commit. -/
def revListSymDiff (ps : List (Nat × List Nat)) (a b : Nat) : List Nat :=
  (commitIds ps).filter (fun c => isAncestorC ps c a != isAncestorC ps c b)

def isSingleCommitBranch (r : Repo) (src dst : Nat) : Bool :=
  (revListSymDiff r.parents src dst).length == 1

/-- The backend's `git merge <branch>` on the checked-out branch `into`:
nothing to do when the branch is already contained; a fast-forward when
allowed and possible; otherwise a fresh 2-parent merge commit. -/
def gitMerge (r : Repo) (into : Name) (intoTip bTip : Nat) (no_ff : Bool) :
    Repo :=
  if isAncestorC r.parents bTip intoTip then r
  else if !no_ff && isAncestorC r.parents intoTip bTip then
    { r with branches := setBranchTip r.branches into bTip }
  else
    { r with nextId := r.nextId + 1,
             parents := (r.nextId, [intoTip, bTip]) :: r.parents,
             branches := setBranchTip r.branches into r.nextId }

/-- `BranchManager.merge` (branches.py:215): check out `into` (an
`IndexError` if it does not exist), return once the branch is already
merged in, otherwise run `git merge`, forcing `--no-ff` unless the
symmetric difference is a single commit.  The merge-message interpolation
has no effect on the ref state and is not modelled. -/
def mergeBranch (r : Repo) (full_name into : Name) : Except GFError Repo :=
  match lookupA r.branches into with
  | none => .error (.indexError into)
  | some intoTip =>
    let r1 := { r with active := into }
    match lookupA r1.branches full_name with
    | none => .error (.badObject full_name)
    | some bTip =>
      if isAncestorC r1.parents bTip intoTip then .ok r1
      else
        .ok (gitMerge r1 into intoTip bTip
              (! isSingleCommitBranch r1 intoTip bTip))

/-- The backend's `repo.delete_head(name, force)` (used by
`BranchManager.delete`, branches.py:253): deleting the checked-out branch
is rejected, and deleting a branch not merged into the current head needs
`force`. -/
def deleteHead (r : Repo) (full_name : Name) (force : Bool) :
    Except GFError Repo :=
  if r.active = full_name then .error (.cannotDeleteCurrent full_name)
  else
    match lookupA r.branches full_name, lookupA r.branches r.active with
    | some tip, some headTip =>
      if force || isAncestorC r.parents tip headTip then
        .ok { r with branches := r.branches.filter (fun b => ¬ b.1 = full_name) }
      else .error (.branchNotMerged full_name)
    | _, _ => .error (.noSuchBranch full_name)

/-- `FeatureBranchManager.finish` (branches.py:299) at `fetch=False`,
`rebase=False`, `push=False`: the `must_be_uptodate` calls consult the
remote only when fetching, the rebase path rewrites history outside this
embedding, and pushing touches only the remote; none of them moves a
local ref on the modelled path.  What remains: merge the feature branch
into develop, then delete it unless `keep`. -/
def featureFinish (r : Repo) (fpfx develop name : Name)
    (keep force_delete : Bool) : Except GFError Repo :=
  match mergeBranch r (fpfx ++ name) develop with
  | .error e => .error e
  | .ok r1 => if keep then .ok r1 else deleteHead r1 (fpfx ++ name) force_delete

/-- Modelled from the spec: `GitFlow.tag` is called from
`ReleaseBranchManager.finish` but absent from `src/gitflow/core.py`.  Per
the spec's `TagInfo` data model and backend contract ("create tag"), it
creates a tag ref at the named ref's commit; message and signing key do
not affect the ref state. -/
def gitflowTag (r : Repo) (tagname ref : Name) : Except GFError Repo :=
  match lookupA r.branches ref with
  | some c => .ok { r with tags := (tagname, c) :: r.tags }
  | none => .error (.badObject ref)

/-- `ReleaseBranchManager.finish` (branches.py:377) at `fetch=False`,
`push=False` (see `featureFinish` for why those paths move no local ref):
merge the branch into master, tag the post-merge master commit when
tagging info is given, merge the branch into develop, then delete it
unless `keep`.  `HotfixBranchManager` inherits this verbatim
(branches.py:414), so the same function covers both types. -/
def releaseFinish (r : Repo) (pfx master develop vtagPfx name : Name)
    (keep force_delete tagging : Bool) : Except GFError Repo :=
  match mergeBranch r (pfx ++ name) master with
  | .error e => .error e
  | .ok r1 =>
    match (if tagging then gitflowTag r1 (vtagPfx ++ name) master else .ok r1) with
    | .error e => .error e
    | .ok r2 =>
      match mergeBranch r2 (pfx ++ name) develop with
      | .error e => .error e
      | .ok r3 =>
        if keep then .ok r3 else deleteHead r3 (pfx ++ name) force_delete

/-- `SupportBranchManager.finish` (branches.py:453): unconditionally
raises `NotImplementedError`, whatever its arguments; no backend call is
made, so the repository is untouched. -/
def supportFinish (r : Repo) (args : List Name) : Except GFError Repo :=
  .error .notImplementedError

/-- `GitFlow.compare_branches` (core.py:483) on resolved commits. -/
def compareBranches (r : Repo) (c1 c2 : Nat) : Nat :=
  if c1 = c2 then 0
  else if isAncestorC r.parents c1 c2 then 1
  else if isAncestorC r.parents c2 c1 then 2
  else 3

/-- `GitFlow.require_branches_equal` (core.py:514): equal is fine, the
local branch being ahead only warns, anything else is a hard `die`. -/
def requireBranchesEqual (r : Repo) (n1 n2 : Name) : Except GFError Unit :=
  match resolveCommit r n1, resolveCommit r n2 with
  | some c1, some c2 =>
    match compareBranches r c1 c2 with
    | 0 => .ok ()
    | 2 => .ok ()
    | _ => .error .systemExit
  | _, _ => .error (.noSuchBranch n1)

/-- `BranchManager.create` (branches.py:131) at `fetch=False`: refuse an
existing branch, a pending merge conflict and a dirty index; when the
default base has a known origin counterpart, require the two to be level;
resolve the base (checking it lies on the default base when demanded);
base on — and track — an existing remote branch of the same name;
finally create the head and check it out. -/
def genericCreate (r : Repo) (pfx name : Name) (base : Option Name)
    (defaultBase origin : Name) (must_be_on_default_base : Bool) :
    Except GFError Repo :=
  let full_name := pfx ++ name
  if (lookupA r.branches full_name).isSome then .error (.branchExists full_name)
  else if r.mergeConflictPending then .error .mergeConflict
  else if r.staged then .error .workdirIsDirty
  else
    match ((if (lookupA r.remoteRefs (originNameOf origin defaultBase)).isSome
            then requireBranchesEqual r (originNameOf origin defaultBase) defaultBase
            else .ok ()) : Except GFError Unit) with
    | .error e => .error e
    | .ok _ =>
      let baseName := base.getD defaultBase
      match ((match base with
              | none => .ok ()
              | some b =>
                if must_be_on_default_base then
                  match isMergedIntoN r b defaultBase with
                  | some true => .ok ()
                  | some false => .error (.baseNotOnBranch b defaultBase)
                  | none => .error (.badObject b)
                else .ok ()) : Except GFError Unit) with
      | .error e => .error e
      | .ok _ =>
        match lookupA r.remoteRefs (originNameOf origin full_name) with
        | some rb =>
          match resolveCommit r baseName with
          | none => .error (.badObject baseName)
          | some bc =>
            if isAncestorC r.parents bc rb then
              .ok { r with
                      branches := (full_name, rb) :: r.branches,
                      tracking := (full_name, originNameOf origin full_name)
                                    :: r.tracking,
                      active := full_name }
            else .error (.baseNotOnBranch baseName full_name)
        | none =>
          match resolveCommit r baseName with
          | none => .error (.badObject baseName)
          | some bc =>
            .ok { r with branches := (full_name, bc) :: r.branches,
                         active := full_name }

/-- `ReleaseBranchManager.create` (branches.py:345): before the generic
`create`, demand that no branch of the type exists and that no version
tag for this version exists.  `HotfixBranchManager` inherits this with
its own identifier, prefix and default base (branches.py:414), so prefix,
identifier and default base are parameters. -/
def releaseCreate (r : Repo) (pfx ident vtagPfx defaultBase origin : Name)
    (version : Name) (base : Option Name) : Except GFError Repo :=
  if 0 < (iterBranches r pfx).length then .error (.branchTypeExists ident)
  else
    let tagname := vtagPfx ++ version
    if (lookupA r.tags tagname).isSome then .error (.tagExists tagname)
    else genericCreate r pfx version base defaultBase origin true

/-- `GitFlow.track` (core.py:365): refuse when the local branch exists;
otherwise the source evaluates `self.origin()`, which is
`repo.branches[origin_name()]` (core.py:212) — a lookup of the origin's
name among the local branches (`branch_names`, core.py:237, identifies
`repo.branches` with the local branches).  When no local branch bears the
origin's name the lookup raises `IndexError`; when one does, local
branch heads offer no `fetch`, so the attribute access fails.  Either
way no fetch happens and no ref is created. -/
def track (r : Repo) (pfx origin name : Name) : Except GFError Repo :=
  let full_name := pfx ++ name
  if (lookupA r.branches full_name).isSome then .error (.branchExists full_name)
  else
    match lookupA r.branches origin with
    | none => .error (.indexError origin)
    | some _ => .error (.badObject origin)

/-- `GitFlow.pull` (core.py:428) as written: the first statement of the
body, `full_name = mgr.full_name(name)`, reads the variable `name`, but
the parameter is called `local_name` and no `name` is in scope — every
call raises `NameError` before anything else runs. -/
def pull (r : Repo) (ident remote localName : Name) : Except GFError Repo :=
  .error .pythonNameError

/-- `GitFlow.branch_info` (core.py:476): name, tip and whether the branch
is the checked-out one. -/
def branch_info (r : Repo) (n : Name) : Option (Name × Nat × Bool) :=
  (lookupA r.branches n).map (fun h => (n, h, decide (r.active = n)))

/-- Modelled from the spec: the snapshot store (`snap`/`restore`) is not
in `src/`.  A snapshot is the captured list of
(branch-name, commit-hash, is-active) tuples.  `restore` walks them in
order: with `backup` it first creates `backup/<name>` at the branch's
current tip, then moves the ref `name` to the captured hash (a hard
reset when `name` is the checked-out branch, a forced ref move
otherwise — the two coincide on the ref state modelled here). -/
def backupNameOf (n : Name) : Name := ("backup".toList) ++ ([Char.ofNat 47]) ++ n

def setOrCreate (bs : List (Name × Nat)) (n : Name) (t : Nat) :
    List (Name × Nat) :=
  if (lookupA bs n).isSome then setBranchTip bs n t else (n, t) :: bs

def restoreOne (backup : Bool) (r : Repo) (t : Name × Nat × Bool) : Repo :=
  let r1 :=
    if backup then
      match lookupA r.branches t.1 with
      | some cur => { r with branches := (backupNameOf t.1, cur) :: r.branches }
      | none => r
    else r
  { r1 with branches := setOrCreate r1.branches t.1 t.2.1 }

def restore (r : Repo) (snap : List (Name × Nat × Bool)) (backup : Bool) :
    Repo :=
  snap.foldl (restoreOne backup) r

/-! ### Basic facts about the commit DAG and ref maps -/

lemma reach_refl (ps : List (Nat × List Nat)) (a : Nat) :
    ∀ f, reachAux ps a f a = true := by
  intro f
  cases f <;> simp [reachAux]

lemma isAncestorC_refl (ps : List (Nat × List Nat)) (a : Nat) :
    isAncestorC ps a a = true :=
  reach_refl ps a a

lemma reach_fuel_mono (ps : List (Nat × List Nat)) (a : Nat) :
    ∀ f' f c, f ≤ f' → reachAux ps a f c = true → reachAux ps a f' c = true := by
  intro f'
  induction f' with
  | zero =>
    intro f c hf h
    have : f = 0 := Nat.le_zero.mp hf
    simpa [this] using h
  | succ f' ih =>
    intro f c hf h
    cases f with
    | zero =>
      simp [reachAux] at h
      simp [reachAux, h]
    | succ f =>
      simp only [reachAux, Bool.or_eq_true, List.any_eq_true] at h ⊢
      rcases h with h | ⟨p, hp, hr⟩
      · exact Or.inl h
      · exact Or.inr ⟨p, hp, ih f p (Nat.le_of_succ_le_succ hf) hr⟩

lemma reach_graph_mono (ps ps' : List (Nat × List Nat)) (a : Nat)
    (hsub : ∀ d, parentsOf ps d ⊆ parentsOf ps' d) :
    ∀ f c, reachAux ps a f c = true → reachAux ps' a f c = true := by
  intro f
  induction f with
  | zero => intro c h; simpa [reachAux] using h
  | succ f ih =>
    intro c h
    simp only [reachAux, Bool.or_eq_true, List.any_eq_true] at h ⊢
    rcases h with h | ⟨p, hp, hr⟩
    · exact Or.inl h
    · exact Or.inr ⟨p, hsub c hp, ih p hr⟩

lemma parentsOf_of_not_mem (ps : List (Nat × List Nat)) (n : Nat)
    (h : n ∉ commitIds ps) : parentsOf ps n = [] := by
  have : ps.find? (fun p => p.1 = n) = none := by
    rw [List.find?_eq_none]
    intro p hp
    simp only [decide_eq_true_eq]
    intro he
    exact h (by simpa [commitIds, he] using List.mem_map_of_mem (fun q => q.1) hp)
  simp [parentsOf, this]

lemma parentsOf_cons (ps : List (Nat × List Nat)) (n : Nat) (q : List Nat)
    (d : Nat) :
    parentsOf ((n, q) :: ps) d = if n = d then q else parentsOf ps d := by
  by_cases h : n = d <;> simp [parentsOf, List.find?_cons, h]

lemma isAncestorC_cons_fresh (ps : List (Nat × List Nat)) (n : Nat)
    (q : List Nat) (hn : n ∉ commitIds ps) (a c : Nat)
    (h : isAncestorC ps a c = true) : isAncestorC ((n, q) :: ps) a c = true := by
  apply reach_graph_mono ps ((n, q) :: ps) a _ c c h
  intro d
  rw [parentsOf_cons]
  by_cases hd : n = d
  · rw [if_pos hd, ← hd, parentsOf_of_not_mem ps n hn]
    exact List.nil_subset q
  · rw [if_neg hd]
    exact fun x hx => hx

lemma parentsOf_lt (ps : List (Nat × List Nat))
    (hdesc : ps.all (fun p => p.2.all (fun q => q < p.1)) = true)
    (c p : Nat) (hp : p ∈ parentsOf ps c) : p < c := by
  simp only [List.all_eq_true, decide_eq_true_eq] at hdesc
  unfold parentsOf at hp
  cases hf : ps.find? (fun x => x.1 = c) with
  | none => simp [hf] at hp
  | some e =>
    rw [hf] at hp
    simp at hp
    have hmem := List.mem_of_find?_eq_some hf
    have heq : e.1 = c := by
      have := List.find?_some hf
      simpa using this
    have := hdesc e hmem p hp
    omega

lemma isAncestorC_trans_aux (ps : List (Nat × List Nat))
    (hdesc : ps.all (fun p => p.2.all (fun q => q < p.1)) = true) (a b : Nat)
    (hab : isAncestorC ps a b = true) :
    ∀ f c, reachAux ps b f c = true → isAncestorC ps a c = true := by
  intro f
  induction f with
  | zero =>
    intro c h
    simp only [reachAux, beq_iff_eq] at h
    exact h ▸ hab
  | succ f ih =>
    intro c h
    simp only [reachAux, Bool.or_eq_true, beq_iff_eq, List.any_eq_true] at h
    rcases h with h | ⟨p, hp, hr⟩
    · exact h ▸ hab
    · have hac : isAncestorC ps a p = true := ih p hr
      have hlt : p < c := parentsOf_lt ps hdesc c p hp
      have hfuel : reachAux ps a (c - 1) p = true :=
        reach_fuel_mono ps a (c - 1) p p (by omega) hac
      have hc : c = (c - 1) + 1 := by omega
      rw [isAncestorC, hc]
      simp only [reachAux, Bool.or_eq_true, List.any_eq_true]
      exact Or.inr ⟨p, by rw [← hc]; exact hp, hfuel⟩

lemma isAncestorC_trans (ps : List (Nat × List Nat))
    (hdesc : ps.all (fun p => p.2.all (fun q => q < p.1)) = true) (a b c : Nat)
    (hab : isAncestorC ps a b = true) (hbc : isAncestorC ps b c = true) :
    isAncestorC ps a c = true :=
  isAncestorC_trans_aux ps hdesc a b hab c c hbc

lemma filter_bne_length (l : List Nat) (f g : Nat → Bool) :
    (l.filter (fun c => f c != g c)).length =
      (l.filter (fun c => f c && !g c)).length +
      (l.filter (fun c => g c && !f c)).length := by
  induction l with
  | nil => simp
  | cons x l ih =>
    cases hf : f x <;> cases hg : g x <;>
      simp [List.filter_cons, hf, hg, ih] <;> omega

/-! ### Lookup lemmas for the ref maps -/

lemma lookupA_cons (bs : List (Name × Nat)) (n m : Name) (t : Nat) :
    lookupA ((n, t) :: bs) m = if n = m then some t else lookupA bs m := by
  by_cases h : n = m <;> simp [lookupA, List.find?_cons, h]

lemma lookupA_setBranchTip_self (bs : List (Name × Nat)) (n : Name) (t : Nat) :
    lookupA (setBranchTip bs n t) n = (lookupA bs n).map (fun _ => t) := by
  induction bs with
  | nil => simp [lookupA, setBranchTip]
  | cons b bs ih =>
    by_cases h : b.1 = n
    · simp [setBranchTip, lookupA, List.find?_cons, h]
    · simp only [setBranchTip, List.map_cons, if_neg h]
      rw [show (List.map (fun b => if b.1 = n then (n, t) else b) bs) =
            setBranchTip bs n t from rfl]
      simp only [lookupA, List.find?_cons]
      have hd : (decide (b.1 = n)) = false := by simpa using h
      simp only [hd]
      exact ih

lemma lookupA_setBranchTip_other (bs : List (Name × Nat)) (n m : Name)
    (t : Nat) (h : m ≠ n) :
    lookupA (setBranchTip bs n t) m = lookupA bs m := by
  induction bs with
  | nil => simp [lookupA, setBranchTip]
  | cons b bs ih =>
    by_cases hb : b.1 = n
    · simp only [setBranchTip, List.map_cons, if_pos hb]
      simp only [lookupA, List.find?_cons]
      have h1 : (decide (n = m)) = false := by simpa using (fun he => h he.symm)
      have h2 : (decide (b.1 = m)) = false := by
        simpa using (fun he => h (by rw [← he, hb]))
      simp only [h1, h2]
      exact ih
    · simp only [setBranchTip, List.map_cons, if_neg hb]
      simp only [lookupA, List.find?_cons]
      cases hd : (decide (b.1 = m)) with
      | true => simp
      | false => exact ih

lemma lookupA_filter_ne (bs : List (Name × Nat)) (n m : Name) (h : m ≠ n) :
    lookupA (bs.filter (fun b => ¬ b.1 = n)) m = lookupA bs m := by
  induction bs with
  | nil => simp [lookupA]
  | cons b bs ih =>
    by_cases hb : b.1 = n
    · rw [List.filter_cons_of_neg (by simpa using hb)]
      rw [ih]
      simp only [lookupA, List.find?_cons]
      have h2 : (decide (b.1 = m)) = false := by
        simpa using (fun he => h (by rw [← he, hb]))
      simp [h2]
    · rw [List.filter_cons_of_pos (by simpa using hb)]
      simp only [lookupA, List.find?_cons]
      cases hd : (decide (b.1 = m)) with
      | true => simp
      | false => exact ih

lemma lookupA_mem (bs : List (Name × Nat)) (n : Name) (t : Nat)
    (h : lookupA bs n = some t) : ∃ e, e ∈ bs ∧ e.1 = n ∧ e.2 = t := by
  unfold lookupA at h
  cases hf : bs.find? (fun p => p.1 = n) with
  | none => rw [hf] at h; simp at h
  | some e =>
    rw [hf] at h
    simp at h
    refine ⟨e, List.mem_of_find?_eq_some hf, ?_, h⟩
    have := List.find?_some hf
    simpa using this

lemma notMem_commitIds (ps : List (Nat × List Nat)) (k : Nat)
    (h : ps.all (fun p => p.1 < k) = true) : k ∉ commitIds ps := by
  simp only [List.all_eq_true, decide_eq_true_eq] at h
  intro hk
  unfold commitIds at hk
  obtain ⟨e, he, hek⟩ := List.mem_map.mp hk
  have := h e he
  omega

lemma isAncestorC_new_commit (ps : List (Nat × List Nat)) (n i b : Nat)
    (hb : b < n) : isAncestorC ((n, [i, b]) :: ps) b n = true := by
  unfold isAncestorC
  obtain ⟨m, hm⟩ : ∃ m, n = m + 1 := ⟨n - 1, by omega⟩
  rw [hm]
  simp only [reachAux, parentsOf_cons, if_pos rfl, Bool.or_eq_true,
    List.any_eq_true]
  exact Or.inr ⟨b, by simp, reach_refl ((m + 1, [i, b]) :: ps) b m⟩

/-- Everything a successful `BranchManager.merge` can have done: both refs
resolved, `into` is checked out, tags/remote refs/tracking are untouched,
and the ref/DAG change is one of: already merged (nothing), fast-forward
(tip moved, no new commit), or a fresh 2-parent merge commit. -/
lemma mergeBranch_cases (r r' : Repo) (full into : Name)
    (h : mergeBranch r full into = .ok r') :
    ∃ intoTip bTip, lookupA r.branches into = some intoTip ∧
      lookupA r.branches full = some bTip ∧
      r'.tags = r.tags ∧ r'.remoteRefs = r.remoteRefs ∧
      r'.tracking = r.tracking ∧ r'.active = into ∧
      r'.mergeConflictPending = r.mergeConflictPending ∧
      r'.staged = r.staged ∧
      ((r'.branches = r.branches ∧ r'.parents = r.parents ∧
         r'.nextId = r.nextId ∧ isAncestorC r.parents bTip intoTip = true) ∨
       (r'.branches = setBranchTip r.branches into bTip ∧
         r'.parents = r.parents ∧ r'.nextId = r.nextId) ∨
       (r'.branches = setBranchTip r.branches into r.nextId ∧
         r'.parents = (r.nextId, [intoTip, bTip]) :: r.parents ∧
         r'.nextId = r.nextId + 1)) := by
  unfold mergeBranch at h
  cases hi : lookupA r.branches into with
  | none => rw [hi] at h; exact absurd h (by simp)
  | some intoTip =>
    rw [hi] at h
    simp only at h
    cases hb : lookupA r.branches full with
    | none => rw [hb] at h; exact absurd h (by simp)
    | some bTip =>
      rw [hb] at h
      simp only at h
      refine ⟨intoTip, bTip, rfl, rfl, ?_⟩
      by_cases hm : isAncestorC r.parents bTip intoTip = true
      · rw [if_pos hm] at h
        cases h
        exact ⟨rfl, rfl, rfl, rfl, rfl, rfl, Or.inl ⟨rfl, rfl, rfl, hm⟩⟩
      · rw [if_neg hm] at h
        unfold gitMerge at h
        simp only at h
        rw [if_neg hm] at h
        by_cases hff :
            (!(!isSingleCommitBranch { r with active := into } intoTip bTip) &&
              isAncestorC r.parents intoTip bTip) = true
        · rw [if_pos hff] at h
          cases h
          exact ⟨rfl, rfl, rfl, rfl, rfl, rfl, Or.inr (Or.inl ⟨rfl, rfl, rfl⟩)⟩
        · rw [if_neg hff] at h
          cases h
          exact ⟨rfl, rfl, rfl, rfl, rfl, rfl, Or.inr (Or.inr ⟨rfl, rfl, rfl⟩)⟩

lemma wfRepo_parts (r : Repo) (h : wfRepo r = true) :
    r.parents.all (fun p => p.2.all (fun q => q < p.1)) = true ∧
    r.parents.all (fun p => p.1 < r.nextId) = true ∧
    r.branches.all
      (fun b => decide (b.2 ∈ commitIds r.parents) && b.2 < r.nextId) = true := by
  unfold wfRepo at h
  rw [Bool.and_eq_true, Bool.and_eq_true] at h
  exact ⟨h.1.1, h.1.2, h.2⟩

lemma wf_tip (r : Repo) (hwf : wfRepo r = true) (n : Name) (t : Nat)
    (h : lookupA r.branches n = some t) :
    t ∈ commitIds r.parents ∧ t < r.nextId := by
  obtain ⟨-, -, htips⟩ := wfRepo_parts r hwf
  obtain ⟨e, he, he1, he2⟩ := lookupA_mem _ _ _ h
  simp only [List.all_eq_true, Bool.and_eq_true, decide_eq_true_eq] at htips
  have := htips e he
  exact he2 ▸ this

lemma all_setBranchTip (bs : List (Name × Nat)) (pred : Name × Nat → Bool)
    (hall : bs.all pred = true) (n : Name) (t : Nat)
    (hp : pred (n, t) = true) : (setBranchTip bs n t).all pred = true := by
  simp only [List.all_eq_true] at hall ⊢
  intro x hx
  obtain ⟨b, hb, rfl⟩ := List.mem_map.mp hx
  by_cases hbn : b.1 = n
  · rw [if_pos hbn]; exact hp
  · rw [if_neg hbn]; exact hall b hb

/-- A successful merge keeps the repository well-formed. -/
lemma wf_mergeBranch (r r' : Repo) (full into : Name) (hwf : wfRepo r = true)
    (h : mergeBranch r full into = .ok r') : wfRepo r' = true := by
  obtain ⟨i, b, hi, hb, -, -, -, -, -, -, hcase⟩ := mergeBranch_cases r r' full into h
  obtain ⟨h1, h2, h3⟩ := wfRepo_parts r hwf
  obtain ⟨hbm, hblt⟩ := wf_tip r hwf full b hb
  obtain ⟨him, hilt⟩ := wf_tip r hwf into i hi
  rcases hcase with ⟨hbr, hpar, hnext, -⟩ | ⟨hbr, hpar, hnext⟩ | ⟨hbr, hpar, hnext⟩
  · unfold wfRepo at hwf ⊢
    rw [hbr, hpar, hnext]
    exact hwf
  · unfold wfRepo
    rw [hbr, hpar, hnext]
    rw [Bool.and_eq_true, Bool.and_eq_true]
    refine ⟨⟨h1, h2⟩, ?_⟩
    exact all_setBranchTip _ _ h3 into b (by simp [hbm]; omega)
  · unfold wfRepo
    rw [hbr, hpar, hnext]
    rw [Bool.and_eq_true, Bool.and_eq_true]
    refine ⟨⟨?_, ?_⟩, ?_⟩
    · simp only [List.all_cons, Bool.and_eq_true] at *
      constructor
      · simp only [List.all_cons, List.all_nil, Bool.and_eq_true,
          decide_eq_true_eq]
        exact ⟨hilt, hblt, trivial⟩
      · exact h1
    · simp only [List.all_cons, Bool.and_eq_true, decide_eq_true_eq]
      constructor
      · omega
      · simp only [List.all_eq_true, decide_eq_true_eq] at h2 ⊢
        intro x hx
        have := h2 x hx
        omega
    · apply all_setBranchTip
      · simp only [List.all_eq_true, Bool.and_eq_true, decide_eq_true_eq]
          at h3 ⊢
        intro x hx
        obtain ⟨hm, hlt⟩ := h3 x hx
        refine ⟨?_, by omega⟩
        simp only [commitIds, List.map_cons]
        exact List.mem_cons_of_mem _ (by simpa [commitIds] using hm)
      · simp only [Bool.and_eq_true, decide_eq_true_eq]
        refine ⟨?_, by omega⟩
        simp [commitIds]

/-- A successful merge does not move any branch other than `into`. -/
lemma mergeBranch_frame (r r' : Repo) (full into : Name)
    (h : mergeBranch r full into = .ok r') (m : Name) (hm : m ≠ into) :
    lookupA r'.branches m = lookupA r.branches m := by
  obtain ⟨i, b, hi, hb, -, -, -, -, -, -, hcase⟩ := mergeBranch_cases r r' full into h
  rcases hcase with ⟨hbr, -, -, -⟩ | ⟨hbr, -, -⟩ | ⟨hbr, -, -⟩
  · rw [hbr]
  · rw [hbr]; exact lookupA_setBranchTip_other _ _ _ _ hm
  · rw [hbr]; exact lookupA_setBranchTip_other _ _ _ _ hm

/-- A successful merge only grows the commit DAG with a fresh commit, so
every ancestry fact persists. -/
lemma mergeBranch_preserves_ancestor (r r' : Repo) (full into : Name)
    (hwf : wfRepo r = true) (h : mergeBranch r full into = .ok r')
    (a c : Nat) (hac : isAncestorC r.parents a c = true) :
    isAncestorC r'.parents a c = true := by
  obtain ⟨i, b, hi, hb, -, -, -, -, -, -, hcase⟩ := mergeBranch_cases r r' full into h
  obtain ⟨-, h2, -⟩ := wfRepo_parts r hwf
  rcases hcase with ⟨-, hpar, -, -⟩ | ⟨-, hpar, -⟩ | ⟨-, hpar, -⟩
  · rw [hpar]; exact hac
  · rw [hpar]; exact hac
  · rw [hpar]
    exact isAncestorC_cons_fresh _ _ _ (notMem_commitIds _ _ h2) a c hac

/-- After a successful merge the branch's old tip is an ancestor of the
new tip of `into`. -/
lemma mergeBranch_into_tip (r r' : Repo) (full into : Name)
    (hwf : wfRepo r = true) (h : mergeBranch r full into = .ok r') :
    ∃ bTip t, lookupA r.branches full = some bTip ∧
      lookupA r'.branches into = some t ∧
      isAncestorC r'.parents bTip t = true := by
  obtain ⟨i, b, hi, hb, -, -, -, -, -, -, hcase⟩ := mergeBranch_cases r r' full into h
  obtain ⟨hbm, hblt⟩ := wf_tip r hwf full b hb
  rcases hcase with ⟨hbr, hpar, -, hanc⟩ | ⟨hbr, hpar, -⟩ | ⟨hbr, hpar, -⟩
  · exact ⟨b, i, hb, by rw [hbr]; exact hi, by rw [hpar]; exact hanc⟩
  · refine ⟨b, b, hb, ?_, by rw [hpar]; exact isAncestorC_refl _ _⟩
    rw [hbr, lookupA_setBranchTip_self, hi]
    rfl
  · refine ⟨b, r.nextId, hb, ?_, ?_⟩
    · rw [hbr, lookupA_setBranchTip_self, hi]
      rfl
    · rw [hpar]
      exact isAncestorC_new_commit _ _ _ _ hblt

lemma lookupA_filter_self (bs : List (Name × Nat)) (n : Name) :
    lookupA (bs.filter (fun b => ¬ b.1 = n)) n = none := by
  induction bs with
  | nil => simp [lookupA]
  | cons b bs ih =>
    by_cases hb : b.1 = n
    · rw [List.filter_cons_of_neg (by simpa using hb)]
      exact ih
    · rw [List.filter_cons_of_pos (by simpa using hb)]
      simp only [lookupA, List.find?_cons]
      have h2 : (decide (b.1 = n)) = false := by simpa using hb
      simp only [h2]
      exact ih

/-- Everything a successful `delete_head` did: it only removed the one
branch ref, leaving the DAG, the tags and the checked-out branch alone. -/
lemma deleteHead_ok (r r' : Repo) (full : Name) (force : Bool)
    (h : deleteHead r full force = .ok r') :
    r'.parents = r.parents ∧ r'.nextId = r.nextId ∧ r'.tags = r.tags ∧
    r'.active = r.active ∧ lookupA r'.branches full = none ∧
    (∀ m, m ≠ full → lookupA r'.branches m = lookupA r.branches m) := by
  unfold deleteHead at h
  by_cases ha : r.active = full
  · rw [if_pos ha] at h; exact absurd h (by simp)
  · rw [if_neg ha] at h
    cases h1 : lookupA r.branches full with
    | none => rw [h1] at h; simp at h
    | some tip =>
      rw [h1] at h
      cases h2 : lookupA r.branches r.active with
      | none => rw [h2] at h; simp at h
      | some headTip =>
        rw [h2] at h
        simp only at h
        by_cases hc : (force || isAncestorC r.parents tip headTip) = true
        · rw [if_pos hc] at h
          cases h
          refine ⟨rfl, rfl, rfl, rfl, ?_, ?_⟩
          · exact lookupA_filter_self r.branches full
          · intro m hm
            exact lookupA_filter_ne r.branches full m hm
        · rw [if_neg hc] at h; exact absurd h (by simp)

/-! ### Claim theorems -/

/-- C10: for every manager prefix, `shorten` after `full_name` is the
identity on short names, and `shorten` returns any string that does not
start with the prefix unchanged. -/
theorem shorten_full_name_roundtrip (pfx n s : Name)
    (h : pfx.isPrefixOf s = false) :
    shorten pfx (full_nameOf pfx n) = n ∧ shorten pfx s = s := by
  constructor
  · unfold shorten full_nameOf
    have hp : pfx.isPrefixOf (pfx ++ n) = true := by
      rw [ List.isPrefixOf_iff_prefix]
      exact List.prefix_append pfx n
    simp only [hp, if_true]
    exact List.drop_left pfx n
  · unfold shorten
    simp [h]

theorem shorten_full_name_roundtrip_witness :
    (("feature/".toList).isPrefixOf ("develop".toList) = false) ∧
    (shorten ("feature/".toList)
        (full_nameOf ("feature/".toList) ("x".toList)) = ("x".toList) ∧
      shorten ("feature/".toList) ("develop".toList) = ("develop".toList)) :=
  ⟨by decide,
    shorten_full_name_roundtrip ("feature/".toList) ("x".toList)
      ("develop".toList) (by decide)⟩

/-- C6: `SupportBranchManager.finish` fails with the fixed
`NotImplementedError` for every repository state and every argument
combination, and, raising before any backend call, leaves the repository
unchanged (the error result carries no state change). -/
theorem supportFinish_always_fails :
    ∀ (r : Repo) (args : List Name),
      supportFinish r args = .error .notImplementedError :=
  fun _ _ => rfl

/-- C8: `GitFlow.pull` as written reads the unbound variable `name` in its
first statement, so every call — whatever the current branch, the remote
or the requested name — raises `NameError` before any check, fetch or
merge; the guarded `SystemExit` path and the fetch/merge paths described
by the spec are unreachable. -/
theorem pull_always_raises_name_error :
    ∀ (r : Repo) (ident remote localName : Name),
      pull r ident remote localName = .error .pythonNameError :=
  fun _ _ _ _ => rfl

lemma isPrefixOf_append_drop (p a x : Name) (h : p.isPrefixOf x = true) :
    ((p ++ a).isPrefixOf x) = (a.isPrefixOf (x.drop p.length)) := by
  rw [ List.isPrefixOf_iff_prefix] at h
  obtain ⟨t, rfl⟩ := h
  rw [List.drop_left]
  by_cases h2 : a.isPrefixOf t = true
  · rw [h2]
    rw [ List.isPrefixOf_iff_prefix] at h2 ⊢
    exact (List.prefix_append_right_inj p).mpr h2
  · simp only [Bool.not_eq_true] at h2
    rw [h2]
    rw [← Bool.not_eq_true] at h2 ⊢
    intro hc
    apply h2
    rw [ List.isPrefixOf_iff_prefix] at hc ⊢
    exact (List.prefix_append_right_inj p).mp hc

/-- The match set of `by_name_prefix` as the claim phrases it — branches
of the type whose short name starts with the given name prefix — equals
the full-name filter the source computes. -/
lemma isPrefixOf_shorten (pfx np : Name) (b : Name × Nat) :
    (pfx.isPrefixOf b.1 && np.isPrefixOf (shorten pfx b.1))
      = (pfx ++ np).isPrefixOf b.1 := by
  by_cases hp : pfx.isPrefixOf b.1 = true
  · rw [hp, Bool.true_and]
    unfold shorten
    rw [if_pos hp]
    exact (isPrefixOf_append_drop pfx np b.1 hp).symm
  · simp only [Bool.not_eq_true] at hp
    have hq : (pfx ++ np).isPrefixOf b.1 = false := by
      cases hq : (pfx ++ np).isPrefixOf b.1 with
      | false => rfl
      | true =>
        exfalso
        have : pfx.isPrefixOf b.1 = true := by
          rw [ List.isPrefixOf_iff_prefix] at hq ⊢
          exact List.IsPrefix.trans (List.prefix_append pfx np) hq
        rw [this] at hp
        exact Bool.noConfusion hp
    rw [hq, hp, Bool.false_and]

/-- C4: `by_name_prefix` is total with a three-way outcome over the
branches of the manager's type whose short name starts with the given
name prefix: zero matches raise `NoSuchBranchError`, a unique match is
returned, several matches raise `PrefixNotUniqueError`. -/
theorem by_name_pfx_total (r : Repo) (pfx ident np : Name) :
    (r.branches.filter
        (fun b => pfx.isPrefixOf b.1 && np.isPrefixOf (shorten pfx b.1)) = []
      → by_name_pfx r pfx ident np = .error (.noSuchBranch (pfx ++ np))) ∧
    (∀ b, r.branches.filter
        (fun b => pfx.isPrefixOf b.1 && np.isPrefixOf (shorten pfx b.1)) = [b]
      → by_name_pfx r pfx ident np = .ok b) ∧
    (1 < (r.branches.filter
        (fun b => pfx.isPrefixOf b.1 && np.isPrefixOf (shorten pfx b.1))).length
      → by_name_pfx r pfx ident np = .error (.prefixNotUnique ident)) := by
  have hclaim : r.branches.filter
      (fun b => pfx.isPrefixOf b.1 && np.isPrefixOf (shorten pfx b.1))
      = r.branches.filter (fun b => (pfx ++ np).isPrefixOf b.1) := by
    apply List.filter_congr
    intro a ha
    rw [isPrefixOf_shorten]
  rw [hclaim]
  have hfuse : (iterBranches r pfx).filter (fun b => (pfx ++ np).isPrefixOf b.1)
      = r.branches.filter (fun b => (pfx ++ np).isPrefixOf b.1) := by
    unfold iterBranches
    rw [List.filter_filter]
    apply List.filter_congr
    intro a ha
    by_cases h : (pfx ++ np).isPrefixOf a.1 = true
    · have hp : pfx.isPrefixOf a.1 = true := by
        rw [ List.isPrefixOf_iff_prefix] at h ⊢
        exact List.IsPrefix.trans (List.prefix_append pfx np) h
      simp [h, hp]
    · simp only [Bool.not_eq_true] at h
      simp [h]
  refine ⟨?_, ?_, ?_⟩
  · intro h
    unfold by_name_pfx
    rw [hfuse, h]
  · intro b h
    unfold by_name_pfx
    rw [hfuse, h]
  · intro h
    unfold by_name_pfx
    cases hl : r.branches.filter (fun b => (pfx ++ np).isPrefixOf b.1) with
    | nil => rw [hl] at h; simp at h
    | cons a t =>
      cases t with
      | nil => rw [hl] at h; simp at h
      | cons c t' => rw [hfuse, hl]

theorem by_name_pfx_total_witness :
    (by_name_pfx
        (Repo.mk 1 [(0, [])] [(("feat/x".toList), 0)] [] [] [] false false
          ("feat/x".toList))
        ("feat/".toList) ("feature".toList) ("x".toList)
      = .ok ((("feat/x".toList), 0))) ∧
    (by_name_pfx
        (Repo.mk 1 [(0, [])] [(("feat/x".toList), 0)] [] [] [] false false
          ("feat/x".toList))
        ("feat/".toList) ("feature".toList) ("y".toList)
      = .error (.noSuchBranch (("feat/y".toList)))) ∧
    (by_name_pfx
        (Repo.mk 1 [(0, [])]
          [(("feat/xa".toList), 0), (("feat/xb".toList), 0)] [] [] [] false
          false ("feat/xa".toList))
        ("feat/".toList) ("feature".toList) ("x".toList)
      = .error (.prefixNotUnique ("feature".toList))) := by
  refine ⟨?_, ?_, ?_⟩
  · exact (by_name_pfx_total _ _ _ _).2.1 _ (by decide)
  · have := (by_name_pfx_total
      (Repo.mk 1 [(0, [])] [(("feat/x".toList), 0)] [] [] [] false false
        ("feat/x".toList)) ("feat/".toList) ("feature".toList)
      ("y".toList)).1 (by decide)
    simpa using this
  · exact (by_name_pfx_total _ _ _ _).2.2 (by decide)

/-- C3: release/hotfix `create` checks, before the generic `create` and
hence before any ref mutation: at least one existing branch of the type
raises `BranchTypeExistsError`, and — that check passing — an existing
version tag for the requested version raises `TagExistsError`. -/
theorem releaseCreate_guards (r : Repo)
    (pfx ident vtagPfx dbase origin v : Name) (base : Option Name) :
    (0 < (iterBranches r pfx).length →
      releaseCreate r pfx ident vtagPfx dbase origin v base
        = .error (.branchTypeExists ident)) ∧
    ((iterBranches r pfx).length = 0 →
      (lookupA r.tags (vtagPfx ++ v)).isSome = true →
      releaseCreate r pfx ident vtagPfx dbase origin v base
        = .error (.tagExists (vtagPfx ++ v))) := by
  constructor
  · intro h
    unfold releaseCreate
    rw [if_pos h]
  · intro h0 htag
    unfold releaseCreate
    rw [if_neg (by omega), if_pos htag]

theorem releaseCreate_guards_witness :
    (releaseCreate
        (Repo.mk 1 [(0, [])] [(("rel/1.0".toList), 0)] [] [] [] false false
          ("rel/1.0".toList))
        ("rel/".toList) ("release".toList) ("v".toList) ("devel".toList)
        ("origin".toList) ("1.1".toList) none
      = .error (.branchTypeExists ("release".toList))) ∧
    (releaseCreate
        (Repo.mk 1 [(0, [])] [(("devel".toList), 0)] [(("v1.1".toList), 0)]
          [] [] false false ("devel".toList))
        ("rel/".toList) ("release".toList) ("v".toList) ("devel".toList)
        ("origin".toList) ("1.1".toList) none
      = .error (.tagExists ("v1.1".toList))) := by
  constructor
  · exact (releaseCreate_guards _ _ _ _ _ _ _ _).1 (by decide)
  · have := (releaseCreate_guards
      (Repo.mk 1 [(0, [])] [(("devel".toList), 0)] [(("v1.1".toList), 0)]
        [] [] false false ("devel".toList))
      ("rel/".toList) ("release".toList) ("v".toList) ("devel".toList)
      ("origin".toList) ("1.1".toList) none).2 (by decide) (by decide)
    simpa using this

/-- C5: a successful feature `finish` never moves the master branch — in
fact it moves no branch other than develop and the (possibly deleted)
feature branch itself, and it creates no tag. -/
theorem featureFinish_master_unchanged (r r' : Repo)
    (fpfx develop name master : Name) (keep force_delete : Bool)
    (hmd : master ≠ develop) (hmf : master ≠ fpfx ++ name)
    (h : featureFinish r fpfx develop name keep force_delete = .ok r') :
    lookupA r'.branches master = lookupA r.branches master ∧
    r'.tags = r.tags ∧
    (∀ m, m ≠ develop → m ≠ fpfx ++ name →
      lookupA r'.branches m = lookupA r.branches m) := by
  unfold featureFinish at h
  cases hm : mergeBranch r (fpfx ++ name) develop with
  | error e => rw [hm] at h; exact absurd h (by simp)
  | ok r1 =>
    rw [hm] at h
    simp only at h
    have htag1 : r1.tags = r.tags :=
      (mergeBranch_cases r r1 _ _ hm).choose_spec.choose_spec.2.2.1
    have hframe1 := mergeBranch_frame r r1 _ _ hm
    cases hk : keep with
    | true =>
      rw [hk] at h
      rw [if_pos rfl] at h
      cases h
      exact ⟨hframe1 master hmd, htag1,
        fun m hmd' _ => hframe1 m hmd'⟩
    | false =>
      rw [hk] at h
      rw [if_neg (by simp)] at h
      obtain ⟨-, -, htag2, -, -, hframe2⟩ := deleteHead_ok r1 r' _ _ h
      refine ⟨?_, htag2.trans htag1, ?_⟩
      · rw [hframe2 master hmf, hframe1 master hmd]
      · intro m h1 h2
        rw [hframe2 m h2, hframe1 m h1]

def rC5 : Repo :=
  Repo.mk 3 [(2, [1]), (1, [0]), (0, [])]
    [(("master".toList), 0), (("devel".toList), 1), (("feat/x".toList), 2)]
    [] [] [] false false ("feat/x".toList)

def rC5' : Repo :=
  Repo.mk 3 [(2, [1]), (1, [0]), (0, [])]
    [(("master".toList), 0), (("devel".toList), 2)]
    [] [] [] false false ("devel".toList)

theorem featureFinish_master_unchanged_witness :
    (featureFinish rC5 ("feat/".toList) ("devel".toList) ("x".toList)
        false false = .ok rC5') ∧
    lookupA rC5'.branches ("master".toList)
      = lookupA rC5.branches ("master".toList) := by
  have hok : featureFinish rC5 ("feat/".toList) ("devel".toList)
      ("x".toList) false false = .ok rC5' := by rfl
  exact ⟨hok,
    (featureFinish_master_unchanged rC5 rC5' ("feat/".toList)
      ("devel".toList) ("x".toList) ("master".toList) false false
      (by decide) (by decide) hok).1⟩

/-- A clone: `devel`/`stable` local, `feat/even` only on the remote, no
local branch named `origin`, nothing checked out with staged changes. -/
def rC7 : Repo :=
  Repo.mk 2 [(1, [0]), (0, [])]
    [(("stable".toList), 0), (("devel".toList), 1)] []
    [(("origin/feat/even".toList), 1)] [] false false ("devel".toList)

/-- Same clone with `feat/even` already present locally. -/
def rC7b : Repo :=
  Repo.mk 2 [(1, [0]), (0, [])]
    [(("stable".toList), 0), (("devel".toList), 1),
      (("feat/even".toList), 1)] []
    [(("origin/feat/even".toList), 1)] [] false false ("devel".toList)

/-- C7: the existing-branch guard of `track` does raise
`BranchExistsError` before any fetch, but on the fresh-branch path the
code crashes evaluating `self.origin()` — a lookup of the origin's name
among the local branches — before fetching or creating anything, while
the claim (and the source's own test) expects a fetch, a tracking branch
and a checkout. -/
theorem track_crashes_before_fetch :
    (track rC7b ("feat/".toList) ("origin".toList) ("even".toList)
      = .error (.branchExists ("feat/even".toList))) ∧
    (track rC7 ("feat/".toList) ("origin".toList) ("even".toList)
      = .error (.indexError ("origin".toList))) := by
  constructor
  · rfl
  · rfl

/-- Develop one commit ahead of the feature branch, which is fully merged;
the feature branch is the checked-out one. -/
def rC2 : Repo :=
  Repo.mk 2 [(1, [0]), (0, [])]
    [(("devel".toList), 1), (("feat/x".toList), 0)] [] [] [] false false
    ("feat/x".toList)

/-- C2 counterexample: with `feat/x` already an ancestor of `devel` but
`feat/x` checked out, `merge` is not a no-op — it checks out `devel`
first and only then returns, so the repository state changes. -/
theorem merge_noop_counterexample :
    (lookupA rC2.branches ("feat/x".toList) = some 0) ∧
    (lookupA rC2.branches ("devel".toList) = some 1) ∧
    (isAncestorC rC2.parents 0 1 = true) ∧
    (mergeBranch rC2 ("feat/x".toList) ("devel".toList)
      = .ok { rC2 with active := ("devel".toList) }) ∧
    ({ rC2 with active := ("devel".toList) } ≠ rC2) := by
  refine ⟨rfl, rfl, by decide, rfl, by decide⟩

/-! ### Snapshot restore (C9) -/

lemma lookupA_setOrCreate_self (bs : List (Name × Nat)) (n : Name) (t : Nat) :
    lookupA (setOrCreate bs n t) n = some t := by
  unfold setOrCreate
  by_cases h : (lookupA bs n).isSome = true
  · rw [if_pos h, lookupA_setBranchTip_self]
    obtain ⟨v, hv⟩ := Option.isSome_iff_exists.mp h
    rw [hv]
    rfl
  · rw [if_neg h, lookupA_cons, if_pos rfl]

lemma lookupA_setOrCreate_other (bs : List (Name × Nat)) (n m : Name)
    (t : Nat) (h : m ≠ n) :
    lookupA (setOrCreate bs n t) m = lookupA bs m := by
  unfold setOrCreate
  by_cases hs : (lookupA bs n).isSome = true
  · rw [if_pos hs]
    exact lookupA_setBranchTip_other bs n m t h
  · rw [if_neg hs, lookupA_cons, if_neg (fun he => h he.symm)]

lemma restoreOne_sets (backup : Bool) (r : Repo) (t : Name × Nat × Bool) :
    lookupA (restoreOne backup r t).branches t.1 = some t.2.1 := by
  unfold restoreOne
  exact lookupA_setOrCreate_self _ _ _

lemma backup_pfx_isPrefixOf (x : Name) :
    ("backup/".toList).isPrefixOf (backupNameOf x) = true := by
  have h : backupNameOf x = ("backup/".toList) ++ x := by
    unfold backupNameOf
    have h2 : ("backup".toList) ++ [Char.ofNat 47] = ("backup/".toList) := by
      decide
    rw [← h2]
  rw [h, List.isPrefixOf_iff_prefix]
  exact List.prefix_append _ _

lemma restoreOne_preserves (backup : Bool) (r : Repo) (t : Name × Nat × Bool)
    (m : Name) (hm : m ≠ t.1) (hb : m ≠ backupNameOf t.1) :
    lookupA (restoreOne backup r t).branches m = lookupA r.branches m := by
  unfold restoreOne
  cases backup with
  | false =>
    show lookupA (setOrCreate r.branches t.1 t.2.1) m = lookupA r.branches m
    exact lookupA_setOrCreate_other _ _ _ _ hm
  | true =>
    cases hc : lookupA r.branches t.1 with
    | none =>
      show lookupA (setOrCreate r.branches t.1 t.2.1) m = lookupA r.branches m
      exact lookupA_setOrCreate_other _ _ _ _ hm
    | some cur =>
      show lookupA (setOrCreate ((backupNameOf t.1, cur) :: r.branches)
        t.1 t.2.1) m = lookupA r.branches m
      rw [lookupA_setOrCreate_other _ _ _ _ hm, lookupA_cons,
        if_neg (fun he => hb he.symm)]

lemma restore_preserves (rest : List (Name × Nat × Bool)) (r : Repo)
    (m : Name) (hm : ∀ t ∈ rest, m ≠ t.1 ∧ m ≠ backupNameOf t.1) :
    lookupA (restore r rest true).branches m = lookupA r.branches m := by
  induction rest generalizing r with
  | nil => rfl
  | cons s rest ih =>
    have hstep : restore r (s :: rest) true
        = restore (restoreOne true r s) rest true := rfl
    rw [hstep, ih (restoreOne true r s) (fun t ht => hm t (List.mem_cons_of_mem s ht))]
    exact restoreOne_preserves true r s m (hm s (List.mem_cons_self s rest)).1
      (hm s (List.mem_cons_self s rest)).2

/-- C9: after `restore(snapshot, backup := true)`, the status query
reports, for every branch captured in the snapshot, exactly the captured
(name, hash) pair — provided the snapshot names are distinct and none of
them lives in the `backup/` namespace the restore itself writes to. -/
theorem restore_reports_snapshot (r : Repo) (snap : List (Name × Nat × Bool))
    (hnodup : (snap.map (fun t => t.1)).Nodup)
    (hnb : ∀ t ∈ snap, ("backup/".toList).isPrefixOf t.1 = false) :
    ∀ t ∈ snap,
      (branch_info (restore r snap true) t.1).map (fun e => (e.1, e.2.1))
        = some (t.1, t.2.1) := by
  induction snap generalizing r with
  | nil => intro t ht; simp at ht
  | cons s rest ih =>
    intro t ht
    have hstep : restore r (s :: rest) true
        = restore (restoreOne true r s) rest true := rfl
    rcases List.mem_cons.mp ht with rfl | hrest
    · have hbase : lookupA (restoreOne true r t).branches t.1 = some t.2.1 :=
        restoreOne_sets true r t
      have hkeep : lookupA (restore (restoreOne true r t) rest true).branches t.1
          = some t.2.1 := by
        rw [restore_preserves rest (restoreOne true r t) t.1 ?_]
        · exact hbase
        · intro u hu
          constructor
          · simp only [List.map_cons, List.nodup_cons] at hnodup
            intro he
            exact hnodup.1 (he ▸ List.mem_map_of_mem (fun t => t.1) hu)
          · intro he
            have := backup_pfx_isPrefixOf u.1
            rw [← he] at this
            rw [hnb t (List.mem_cons_self t rest)] at this
            exact Bool.noConfusion this
      rw [hstep]
      unfold branch_info
      rw [hkeep]
      rfl
    · rw [hstep]
      refine ih (restoreOne true r s) ?_ ?_ t hrest
      · simp only [List.map_cons, List.nodup_cons] at hnodup
        exact hnodup.2
      · intro u hu
        exact hnb u (List.mem_cons_of_mem s hu)

/-- A two-branch repository and a snapshot capturing older tips. -/
def rC9 : Repo :=
  Repo.mk 3 [(2, [1]), (1, [0]), (0, [])]
    [(("master".toList), 2), (("devel".toList), 2)] [] [] [] false false
    ("devel".toList)

def snapC9 : List (Name × Nat × Bool) :=
  [(("master".toList), 0, false), (("devel".toList), 1, true)]

theorem restore_reports_snapshot_witness :
    (branch_info (restore rC9 snapC9 true) ("master".toList)).map
        (fun e => (e.1, e.2.1)) = some (("master".toList), 0) :=
  restore_reports_snapshot rC9 snapC9 (by decide) (by decide)
    (("master".toList), 0, false) (by decide)

/-! ### Merge behaviour (C2) -/

/-- Commits the branch has that `into` lacks (the branch is "k commits
ahead" when this list has k elements). -/
def aheadCommits (ps : List (Nat × List Nat)) (intoTip bTip : Nat) :
    List Nat :=
  (commitIds ps).filter
    (fun c => isAncestorC ps c bTip && !(isAncestorC ps c intoTip))

/-- Commits `into` has that the branch lacks. -/
def behindCommits (ps : List (Nat × List Nat)) (intoTip bTip : Nat) :
    List Nat :=
  (commitIds ps).filter
    (fun c => isAncestorC ps c intoTip && !(isAncestorC ps c bTip))

lemma symdiff_length (ps : List (Nat × List Nat)) (i b : Nat) :
    (revListSymDiff ps i b).length
      = (behindCommits ps i b).length + (aheadCommits ps i b).length := by
  unfold revListSymDiff behindCommits aheadCommits
  exact filter_bne_length (commitIds ps) (fun c => isAncestorC ps c i)
    (fun c => isAncestorC ps c b)

lemma not_merged_of_ahead_pos (ps : List (Nat × List Nat))
    (hdesc : ps.all (fun p => p.2.all (fun q => q < p.1)) = true) (i b : Nat)
    (h : 0 < (aheadCommits ps i b).length) : isAncestorC ps b i = false := by
  cases hm : isAncestorC ps b i with
  | false => rfl
  | true =>
    exfalso
    obtain ⟨c, hc⟩ := List.exists_mem_of_ne_nil _ (List.length_pos.mp h)
    obtain ⟨hmem, hpred⟩ := List.mem_filter.mp hc
    rw [Bool.and_eq_true] at hpred
    have hci := isAncestorC_trans ps hdesc c b i hpred.1 hm
    rw [hci] at hpred
    exact Bool.noConfusion hpred.2

lemma merged_of_behind_zero (ps : List (Nat × List Nat)) (i b : Nat)
    (hmem : i ∈ commitIds ps)
    (h : (behindCommits ps i b).length = 0) : isAncestorC ps i b = true := by
  cases hm : isAncestorC ps i b with
  | true => rfl
  | false =>
    exfalso
    have hin : i ∈ behindCommits ps i b := by
      apply List.mem_filter.mpr
      refine ⟨hmem, ?_⟩
      rw [isAncestorC_refl, hm]
      rfl
    have := List.length_pos.mpr (List.ne_nil_of_mem hin)
    omega

/-- Evaluating `BranchManager.merge` once both refs resolve. -/
lemma mergeBranch_eq (r : Repo) (full into : Name) (intoTip bTip : Nat)
    (hi : lookupA r.branches into = some intoTip)
    (hb : lookupA r.branches full = some bTip) :
    mergeBranch r full into =
      if isAncestorC r.parents bTip intoTip = true
      then .ok { r with active := into }
      else .ok (gitMerge { r with active := into } into intoTip bTip
        (! isSingleCommitBranch { r with active := into } intoTip bTip)) := by
  unfold mergeBranch
  simp only [hi]
  simp only [show lookupA ({ r with active := into } : Repo).branches full
    = some bTip from hb]

/-- C2 (amended): `merge` always checks out `into` first.  With that,
(1) when the branch is already an ancestor of `into` nothing else
happens — no ref moves, no commit is created; (2) when the branch is
exactly one commit ahead of `into` (and `into` not ahead of it), the
merge is a fast-forward: the tip of `into` becomes the branch tip and no
commit is created; (3) when the branch is more than one commit ahead, a
fresh 2-parent merge commit is always created and becomes the tip of
`into`. -/
theorem merge_behaviour (r : Repo) (full into : Name) (intoTip bTip : Nat)
    (hwf : wfRepo r = true)
    (hi : lookupA r.branches into = some intoTip)
    (hb : lookupA r.branches full = some bTip) :
    (isAncestorC r.parents bTip intoTip = true →
      mergeBranch r full into = .ok { r with active := into }) ∧
    ((aheadCommits r.parents intoTip bTip).length = 1 →
      (behindCommits r.parents intoTip bTip).length = 0 →
      mergeBranch r full into = .ok { r with
        active := into, branches := setBranchTip r.branches into bTip }) ∧
    (1 < (aheadCommits r.parents intoTip bTip).length →
      mergeBranch r full into = .ok { r with
        active := into, nextId := r.nextId + 1,
        parents := (r.nextId, [intoTip, bTip]) :: r.parents,
        branches := setBranchTip r.branches into r.nextId }) := by
  obtain ⟨hdesc, -, -⟩ := wfRepo_parts r hwf
  rw [mergeBranch_eq r full into intoTip bTip hi hb]
  refine ⟨?_, ?_, ?_⟩
  · intro hmerged
    rw [if_pos hmerged]
  · intro ha hbz
    have hnm : isAncestorC r.parents bTip intoTip = false :=
      not_merged_of_ahead_pos _ hdesc _ _ (by omega)
    have him : intoTip ∈ commitIds r.parents := (wf_tip r hwf into intoTip hi).1
    have hfwd : isAncestorC r.parents intoTip bTip = true :=
      merged_of_behind_zero _ _ _ him hbz
    have hsd : isSingleCommitBranch { r with active := into } intoTip bTip
        = true := by
      unfold isSingleCommitBranch
      show ((revListSymDiff r.parents intoTip bTip).length == 1) = true
      rw [symdiff_length, ha, hbz]
      rfl
    rw [if_neg (by rw [hnm]; exact Bool.noConfusion), hsd]
    unfold gitMerge
    show Except.ok (if isAncestorC r.parents bTip intoTip = true
        then ({ r with active := into } : Repo)
        else if (!(!true) && isAncestorC r.parents intoTip bTip) = true
          then { r with
            active := into, branches := setBranchTip r.branches into bTip }
          else { r with
            active := into, nextId := r.nextId + 1,
            parents := (r.nextId, [intoTip, bTip]) :: r.parents,
            branches := setBranchTip r.branches into r.nextId }) = _
    rw [if_neg (by rw [hnm]; exact Bool.noConfusion),
      if_pos (by rw [hfwd]; rfl)]
  · intro ha2
    have hnm : isAncestorC r.parents bTip intoTip = false :=
      not_merged_of_ahead_pos _ hdesc _ _ (by omega)
    have hsd : isSingleCommitBranch { r with active := into } intoTip bTip
        = false := by
      unfold isSingleCommitBranch
      show ((revListSymDiff r.parents intoTip bTip).length == 1) = false
      have hne : (revListSymDiff r.parents intoTip bTip).length ≠ 1 := by
        rw [symdiff_length]
        omega
      simpa using hne
    rw [if_neg (by rw [hnm]; exact Bool.noConfusion), hsd]
    unfold gitMerge
    show Except.ok (if isAncestorC r.parents bTip intoTip = true
        then ({ r with active := into } : Repo)
        else if (!(!false) && isAncestorC r.parents intoTip bTip) = true
          then { r with
            active := into, branches := setBranchTip r.branches into bTip }
          else { r with
            active := into, nextId := r.nextId + 1,
            parents := (r.nextId, [intoTip, bTip]) :: r.parents,
            branches := setBranchTip r.branches into r.nextId }) = _
    rw [if_neg (by rw [hnm]; exact Bool.noConfusion), if_neg (by simp)]

/-! ### Release/hotfix finish (C1) -/

lemma mergeBranch_tags (r r' : Repo) (full into : Name)
    (h : mergeBranch r full into = .ok r') : r'.tags = r.tags := by
  obtain ⟨i, b, -, -, htags, -⟩ := mergeBranch_cases r r' full into h
  exact htags

/-- C1 (amended): a successful release/hotfix `finish` with tagging
first merges the branch into master, tags the post-merge master commit,
then merges the branch into develop.  Consequently the version tag
points at master's final tip (hence is reachable from master), and the
finished branch's old tip is an ancestor of both master's and develop's
new tips.  (Master's new tip need not be an ancestor of develop's —
see the counterexample.) -/
theorem releaseFinish_order (r r' : Repo)
    (pfx master develop vtagPfx name : Name) (keep fd : Bool) (bTip : Nat)
    (hwf : wfRepo r = true)
    (hmd : master ≠ develop) (hfm : pfx ++ name ≠ master)
    (hfd : pfx ++ name ≠ develop)
    (hb : lookupA r.branches (pfx ++ name) = some bTip)
    (h : releaseFinish r pfx master develop vtagPfx name keep fd true
      = .ok r') :
    ∃ m d, lookupA r'.branches master = some m ∧
      lookupA r'.branches develop = some d ∧
      lookupA r'.tags (vtagPfx ++ name) = some m ∧
      isAncestorC r'.parents m m = true ∧
      isAncestorC r'.parents bTip m = true ∧
      isAncestorC r'.parents bTip d = true := by
  unfold releaseFinish at h
  cases hm1 : mergeBranch r (pfx ++ name) master with
  | error e => rw [hm1] at h; exact absurd h (by simp)
  | ok r1 =>
    rw [hm1] at h
    simp only at h
    have hwf1 := wf_mergeBranch r r1 _ _ hwf hm1
    obtain ⟨bT, t1, hbT, ht1, hanc1⟩ := mergeBranch_into_tip r r1 _ _ hwf hm1
    rw [hb] at hbT
    injection hbT with hbT
    subst hbT
    have hfr1 := mergeBranch_frame r r1 _ _ hm1
    have hb_r1 : lookupA r1.branches (pfx ++ name) = some bTip := by
      rw [hfr1 _ hfm]
      exact hb
    cases ht : gitflowTag r1 (vtagPfx ++ name) master with
    | error e => rw [ht] at h; exact absurd h (by simp)
    | ok r2 =>
      rw [ht] at h
      rw [if_pos trivial] at h
      simp only at h
      unfold gitflowTag at ht
      cases hmt : lookupA r1.branches master with
      | none => rw [hmt] at ht; exact absurd ht (by simp)
      | some m1 =>
        rw [hmt] at ht
        simp only at ht
        injection ht with ht
        rw [hmt] at ht1
        injection ht1 with ht1
        subst ht1
        have hr2tags : r2.tags = (vtagPfx ++ name, m1) :: r1.tags := by
          rw [← ht]
        have hr2branches : r2.branches = r1.branches := by rw [← ht]
        have hr2parents : r2.parents = r1.parents := by rw [← ht]
        have hwf2 : wfRepo r2 = true := by
          rw [← ht]
          exact hwf1
        cases hm2 : mergeBranch r2 (pfx ++ name) develop with
        | error e => rw [hm2] at h; exact absurd h (by simp)
        | ok r3 =>
          rw [hm2] at h
          simp only at h
          obtain ⟨b2, t2, hb2, ht2, hanc2⟩ :=
            mergeBranch_into_tip r2 r3 _ _ hwf2 hm2
          rw [hr2branches, hb_r1] at hb2
          injection hb2 with hb2
          subst hb2
          have hm_r3 : lookupA r3.branches master = some m1 := by
            rw [mergeBranch_frame r2 r3 _ _ hm2 master hmd, hr2branches, hmt]
          have htags3 : r3.tags = (vtagPfx ++ name, m1) :: r1.tags := by
            rw [mergeBranch_tags r2 r3 _ _ hm2, hr2tags]
          have hanc1' : isAncestorC r2.parents bTip m1 = true := by
            rw [hr2parents]
            exact hanc1
          have hanc1'' : isAncestorC r3.parents bTip m1 = true :=
            mergeBranch_preserves_ancestor r2 r3 _ _ hwf2 hm2 bTip m1 hanc1'
          have htagLookup : lookupA r3.tags (vtagPfx ++ name) = some m1 := by
            rw [htags3, lookupA_cons, if_pos rfl]
          cases hk : keep with
          | true =>
            rw [hk] at h
            rw [if_pos rfl] at h
            injection h with h
            subst h
            exact ⟨m1, t2, hm_r3, ht2, htagLookup, isAncestorC_refl _ _,
              hanc1'', hanc2⟩
          | false =>
            rw [hk] at h
            rw [if_neg (by simp)] at h
            obtain ⟨hp4, -, ht4, -, -, hfr4⟩ := deleteHead_ok r3 r' _ _ h
            refine ⟨m1, t2, ?_, ?_, ?_, ?_, ?_, ?_⟩
            · rw [hfr4 master (fun he => hfm he.symm), hm_r3]
            · rw [hfr4 develop (fun he => hfd he.symm), ht2]
            · rw [ht4, htagLookup]
            · exact isAncestorC_refl _ _
            · rw [hp4]
              exact hanc1''
            · rw [hp4]
              exact hanc2

/-- Develop one commit ahead of master; a release branch with two commits
on top of develop; the release branch is checked out. -/
def rC1 : Repo :=
  Repo.mk 4 [(3, [2]), (2, [1]), (1, [0]), (0, [])]
    [(("master".toList), 0), (("devel".toList), 1), (("rel/1.0".toList), 3)]
    [] [] [] false false ("rel/1.0".toList)

/-- The state `releaseFinish` produces from `rC1`: both merges are forced
2-parent merge commits (4 on master, 5 on develop), the tag points at 4,
and the release branch is deleted. -/
def rC1' : Repo :=
  Repo.mk 6 [(5, [1, 3]), (4, [0, 3]), (3, [2]), (2, [1]), (1, [0]), (0, [])]
    [(("master".toList), 4), (("devel".toList), 5)]
    [(("v1.0".toList), 4)] [] [] false false ("devel".toList)

/-- C1 counterexample: after a successful release `finish` with tagging,
master's new tip (the merge commit 4) is NOT an ancestor of develop's new
tip (the merge commit 5): `finish` merges the branch — not master — into
develop, so the two merge commits are unrelated. -/
theorem releaseFinish_not_ancestor_counterexample :
    (releaseFinish rC1 ("rel/".toList) ("master".toList) ("devel".toList)
        ("v".toList) ("1.0".toList) false false true = .ok rC1') ∧
    (lookupA rC1'.branches ("master".toList) = some 4) ∧
    (lookupA rC1'.branches ("devel".toList) = some 5) ∧
    (isAncestorC rC1'.parents 4 5 = false) := by
  refine ⟨rfl, rfl, rfl, by decide⟩

theorem releaseFinish_order_witness :
    ∃ m d, lookupA rC1'.branches ("master".toList) = some m ∧
      lookupA rC1'.branches ("devel".toList) = some d ∧
      lookupA rC1'.tags ("v1.0".toList) = some m ∧
      isAncestorC rC1'.parents m m = true ∧
      isAncestorC rC1'.parents 3 m = true ∧
      isAncestorC rC1'.parents 3 d = true :=
  releaseFinish_order rC1 rC1' ("rel/".toList) ("master".toList)
    ("devel".toList) ("v".toList) ("1.0".toList) false false 3
    (by decide) (by decide) (by decide) (by decide) (by decide) rfl

/-- Develop behind the feature branch by exactly one commit. -/
def rC2w2 : Repo :=
  Repo.mk 2 [(1, [0]), (0, [])]
    [(("devel".toList), 0), (("feat/y".toList), 1)] [] [] [] false false
    ("feat/y".toList)

/-- Develop behind the feature branch by two commits. -/
def rC2w3 : Repo :=
  Repo.mk 3 [(2, [1]), (1, [0]), (0, [])]
    [(("devel".toList), 0), (("feat/z".toList), 2)] [] [] [] false false
    ("feat/z".toList)

theorem merge_behaviour_witness :
    (mergeBranch rC2 ("feat/x".toList) ("devel".toList)
      = .ok { rC2 with active := ("devel".toList) }) ∧
    (mergeBranch rC2w2 ("feat/y".toList) ("devel".toList)
      = .ok { rC2w2 with
          active := ("devel".toList),
          branches := setBranchTip rC2w2.branches ("devel".toList) 1 }) ∧
    (mergeBranch rC2w3 ("feat/z".toList) ("devel".toList)
      = .ok { rC2w3 with
          active := ("devel".toList), nextId := rC2w3.nextId + 1,
          parents := (rC2w3.nextId, [0, 2]) :: rC2w3.parents,
          branches := setBranchTip rC2w3.branches ("devel".toList)
            rC2w3.nextId }) := by
  refine ⟨?_, ?_, ?_⟩
  · exact (merge_behaviour rC2 ("feat/x".toList) ("devel".toList) 1 0
      (by decide) (by decide) (by decide)).1 (by decide)
  · exact (merge_behaviour rC2w2 ("feat/y".toList) ("devel".toList) 0 1
      (by decide) (by decide) (by decide)).2.1 (by decide) (by decide)
  · exact (merge_behaviour rC2w3 ("feat/z".toList) ("devel".toList) 0 2
      (by decide) (by decide) (by decide)).2.2 (by decide)

end GitflowModel
